import Mathlib

/-!
Verification of the teryx CLI (src/main.go) against its specification.

The three workflows (`init`, `clone`, `transfer`) are linear pipelines of
external-process invocations.  Each workflow is embedded as a pure function
from its command-line inputs and an oracle of external-command outcomes to
the list of external events it performs together with its terminal outcome
(success, fatal error, or runtime panic).  The Go standard-library string
and path helpers the source calls (strings.HasSuffix, strings.TrimSuffix,
strings.SplitN, path/filepath Clean, Join, Dir, Base, and a restricted
net/url.Parse) are modelled over the character list of a string, following
their documented semantics.
-/

namespace Teryx

/-- Model of Go strings.HasSuffix: reports whether the string ends with
the given suffix. -/
def hasSuffix (s suf : String) : Bool :=
  List.isSuffixOf suf.data s.data

/-- Model of Go strings.TrimSuffix: removes one trailing copy of the
suffix when present, otherwise returns the string unchanged. -/
def trimSuffix (s suf : String) : String :=
  if hasSuffix s suf then ⟨s.data.take (s.data.length - suf.data.length)⟩ else s

/-- Model of the source call that strips one leading "/" from a URL path
(main.go line 252). -/
def trimLeadSlash (s : String) : String :=
  if s.data.head? = some '/' then ⟨s.data.tail⟩ else s

/-- Model of Go strings.TrimSpace as used by the capturing process runner
(main.go line 73): drops whitespace from both ends. -/
def trimSpace (s : String) : String :=
  ⟨((s.data.dropWhile Char.isWhitespace).reverse.dropWhile Char.isWhitespace).reverse⟩

/-- Left part and right part of a character list around the first
occurrence of the separator, or none when the separator is absent. -/
def breakAtFirst (sep : Char) : List Char → Option (List Char × List Char)
  | [] => none
  | c :: cs =>
    if c = sep then some ([], cs)
    else
      match breakAtFirst sep cs with
      | none => none
      | some (p, q) => some (c :: p, q)

/-- Model of Go strings.SplitN(s, ":", 2) (main.go lines 181 and 212):
two parts split at the first colon, or the whole string when it has no
colon. -/
def splitN2Colon (s : String) : List String :=
  match breakAtFirst ':' s.data with
  | none => [s]
  | some (p, q) => [⟨p⟩, ⟨q⟩]

/-- Extend the first component of a split with one more leading
character. -/
def consHeadC (c : Char) : List (List Char) → List (List Char)
  | [] => [[c]]
  | p :: ps => (c :: p) :: ps

/-- Split a character list on every occurrence of the separator.  Always
returns at least one (possibly empty) component. -/
def splitOnC (sep : Char) : List Char → List (List Char)
  | [] => [[]]
  | c :: cs =>
    if c = sep then [] :: splitOnC sep cs
    else consHeadC c (splitOnC sep cs)

/-- Join components with the separator between consecutive components. -/
def intercalateC (sep : Char) : List (List Char) → List Char
  | [] => []
  | [x] => x
  | x :: y :: t => x ++ sep :: intercalateC sep (y :: t)

/-- One step of the lexical cleaning of Go path/filepath.Clean, processing
a single path component against a stack of kept components (most recent
first).  Empty components and "." are dropped; ".." pops the preceding
component, is dropped at the root, and accumulates otherwise. -/
def cleanStep (rooted : Bool) (acc : List (List Char)) (c : List Char) :
    List (List Char) :=
  if c = [] then acc
  else if c = ['.'] then acc
  else if c = ['.', '.'] then
    match acc with
    | [] => if rooted then [] else [['.', '.']]
    | a :: rest => if a = ['.', '.'] then ['.', '.'] :: a :: rest else rest
  else c :: acc

/-- Process all components through `cleanStep` and return the kept
components in order. -/
def cleanStack (rooted : Bool) (acc : List (List Char))
    (cs : List (List Char)) : List (List Char) :=
  (cs.foldl (cleanStep rooted) acc).reverse

/-- Reassemble cleaned components into a path, restoring the root and
mapping an empty result to "." or "/". -/
def cleanAssemble (rooted : Bool) (comps : List (List Char)) : List Char :=
  let body := intercalateC '/' comps
  if rooted then (if body = [] then ['/'] else '/' :: body)
  else (if body = [] then ['.'] else body)

/-- Whether the path is rooted, that is, begins with the separator. -/
def isRooted : List Char → Bool
  | c :: _ => c == '/'
  | [] => false

/-- Model of Go path/filepath.Clean on the character list of a path
(Unix separator). -/
def cleanC (p : List Char) : List Char :=
  if p = [] then ['.']
  else cleanAssemble (isRooted p) (cleanStack (isRooted p) [] (splitOnC '/' p))

/-- Model of Go path/filepath.Clean on strings. -/
def cleanPath (s : String) : String :=
  ⟨cleanC s.data⟩

/-- Model of Go path/filepath.Join: starting from the first non-empty
element, the elements are joined with "/" and the result is cleaned; the
result is empty when every element is empty. -/
def joinPaths : List String → String
  | [] => ""
  | e :: rest =>
    if e = "" then joinPaths rest
    else ⟨cleanC (intercalateC '/' ((e :: rest).map String.data))⟩

/-- Model of Go path/filepath.Dir: everything up to and including the
final "/", cleaned; "." when the path has no "/". -/
def dirPath (path : String) : String :=
  match splitOnC '/' path.data with
  | [] => cleanPath ""
  | [_] => cleanPath ""
  | comps => ⟨cleanC (intercalateC '/' comps.dropLast ++ ['/'])⟩

/-- Model of Go path/filepath.Base: the last component after trailing
slashes are removed; "." for the empty path and "/" for a path of only
slashes. -/
def basePath (path : String) : String :=
  if path.data = [] then "."
  else
    let p := (path.data.reverse.dropWhile (fun c => c == '/')).reverse
    if p = [] then "/"
    else ⟨(splitOnC '/' p).getLastD []⟩

/-- Parsed URL as used by the clone workflow: scheme, host and path.
Modelled restriction of Go net/url.Parse covering absolute URLs of the
shape scheme://host[/path] with no user info, port, query or fragment,
which are the only shapes the clone workflow claims exercise; `host`
plays the role of URL.Hostname(). -/
structure GoURL where
  scheme : String
  host : String
  path : String
deriving DecidableEq

/-- Split a URL at the first occurrence of "://" into scheme and
remainder. -/
def breakSchemeRest : List Char → Option (List Char × List Char)
  | [] => none
  | ':' :: '/' :: '/' :: rest => some ([], rest)
  | c :: cs =>
    match breakSchemeRest cs with
    | none => none
    | some (p, q) => some (c :: p, q)

/-- Modelled restriction of Go net/url.Parse (see `GoURL`). -/
def parseURL (s : String) : Option GoURL :=
  match breakSchemeRest s.data with
  | none => none
  | some (sch, rest) =>
    match breakAtFirst '/' rest with
    | none => some ⟨⟨sch⟩, ⟨rest⟩, ""⟩
    | some (host, tl) => some ⟨⟨sch⟩, ⟨host⟩, ⟨'/' :: tl⟩⟩

/-- Name normalization of the init workflow (main.go lines 103-107):
append ".fossil" when the argument does not already end with it. -/
def normalizeRepoName (repoArg : String) : String :=
  if hasSuffix repoArg ".fossil" then repoArg else repoArg ++ ".fossil"

/-- An external event performed by the init workflow: a capturing process
invocation, an interactive process invocation with a working directory,
or a directory creation. -/
inductive InitEvent where
  | runCapture (program : String) (args : List String)
  | run (workingDir program : String) (args : List String)
  | mkdirAll (dirName : String)
deriving DecidableEq

/-- Terminal outcome of the init workflow. -/
inductive InitOutcome where
  | fatal (msg : String)
  | success (checkoutDirName : String)
deriving DecidableEq

/-- Oracle for the external calls of the init workflow: the captured
output of whoami (none meaning the command failed) and the success of
each subsequent step. -/
structure InitOracle where
  whoamiOutput : Option String
  fossilNewOk : Bool
  mkdirOk : Bool
  fossilOpenOk : Bool
  userPasswordOk : Bool
  userDefaultOk : Bool

/-- The init workflow (main.go lines 93-154): trace of external events
performed, and terminal outcome, as a function of the repository-name
argument, the password and user flags, and the oracle. -/
def initCmdRun (repoArg password userFlag : String) (o : InitOracle) :
    List InitEvent × InitOutcome :=
  if password = "" then ([], .fatal "--password flag is required.")
  else
    let repoName := normalizeRepoName repoArg
    let resolve : List InitEvent × Option String :=
      if userFlag = "" then
        match o.whoamiOutput with
        | none => ([.runCapture "whoami" []], none)
        | some out => ([.runCapture "whoami" []], some (trimSpace out))
      else ([], some userFlag)
    match resolve with
    | (evs1, none) => (evs1, .fatal "Failed to get current user with whoami")
    | (evs1, some username) =>
      let evs2 := evs1 ++ [.run "" "fossil" ["new", repoName]]
      if o.fossilNewOk = false then (evs2, .fatal "Failed to create new repository")
      else
        let checkoutDirName := trimSuffix repoName ".fossil"
        let evs3 := evs2 ++ [.mkdirAll checkoutDirName]
        if o.mkdirOk = false then (evs3, .fatal "Failed to create checkout directory")
        else
          let repoFilePath := joinPaths ["..", repoName]
          let evs4 := evs3 ++ [.run checkoutDirName "fossil" ["open", repoFilePath]]
          if o.fossilOpenOk = false then (evs4, .fatal "Failed to open repository")
          else
            let evs5 := evs4 ++ [.run checkoutDirName "fossil" ["user", "password", username, password]]
            if o.userPasswordOk = false then (evs5, .fatal "Failed to set user password")
            else
              let evs6 := evs5 ++ [.run checkoutDirName "fossil" ["user", "default", username]]
              if o.userDefaultOk = false then (evs6, .fatal "Failed to set default user")
              else (evs6, .success checkoutDirName)

/-- An external or console event of the transfer workflow: the primary
scp invocation, the fallback sftp invocation with its piped standard
input line, or the printing (never execution) of the remediation
command. -/
inductive TransferEvent where
  | runScp (repoName destination : String)
  | runSftp (userHost stdinLine : String)
  | printRemediation (commandLine : String)
deriving DecidableEq

/-- Terminal outcome of the transfer workflow.  `panicIndexOutOfRange`
models the Go runtime panic raised by indexing parts[1] when SplitN
returned fewer than two parts (main.go line 214). -/
inductive TransferOutcome where
  | fatal (msg : String)
  | panicIndexOutOfRange
  | success
deriving DecidableEq

/-- The remediation command printed on success (main.go line 217). -/
def sshRemediation (userHost remoteUser remotePath : String) : String :=
  "ssh -t " ++ userHost ++ " \"sudo chown " ++ remoteUser ++ ":" ++ remoteUser
    ++ " " ++ remotePath ++ " && sudo chmod 664 " ++ remotePath ++ "\""

/-- The success block of the transfer workflow (main.go lines 203-218):
re-splits the destination on the first colon and prints the remediation
command; indexing the second part panics when the split produced fewer
than two parts. -/
def successReport (repoName destination remoteUser : String)
    (evs : List TransferEvent) : List TransferEvent × TransferOutcome :=
  let parts := splitN2Colon destination
  if parts.length < 2 then (evs, .panicIndexOutOfRange)
  else
    let userHost := parts.getD 0 ""
    let remotePath := joinPaths [parts.getD 1 "", repoName]
    (evs ++ [.printRemediation (sshRemediation userHost remoteUser remotePath)], .success)

/-- The transfer workflow (main.go lines 162-219): trace of events and
terminal outcome as a function of the repository name, destination and
remote-user flags, and the outcomes of the scp and sftp invocations. -/
def transferCmdRun (repoName destination remoteUser : String)
    (scpOk sftpOk : Bool) : List TransferEvent × TransferOutcome :=
  if destination = "" then ([], .fatal "--destination flag is required.")
  else
    let evs1 : List TransferEvent := [.runScp repoName destination]
    if scpOk then successReport repoName destination remoteUser evs1
    else
      let parts := splitN2Colon destination
      if parts.length ≠ 2 then
        (evs1, .fatal "Invalid destination format. Expected user@host:path")
      else
        let userHost := parts.getD 0 ""
        let remotePath := parts.getD 1 ""
        let evs2 := evs1 ++ [.runSftp userHost ("put " ++ repoName ++ " " ++ remotePath)]
        if sftpOk then successReport repoName destination remoteUser evs2
        else (evs2, .fatal "sftp fallback also failed")

/-- Whether a transfer event is the primary scp invocation. -/
def isRunScp : TransferEvent → Bool
  | .runScp _ _ => true
  | _ => false

/-- Whether a transfer event is the fallback sftp invocation. -/
def isRunSftp : TransferEvent → Bool
  | .runSftp _ _ => true
  | _ => false

/-- Number of primary scp attempts in a transfer trace. -/
def scpAttempts (evs : List TransferEvent) : Nat :=
  evs.countP isRunScp

/-- Number of fallback sftp attempts in a transfer trace. -/
def sftpAttempts (evs : List TransferEvent) : Nat :=
  evs.countP isRunSftp

/-- The path values computed by the clone workflow. -/
structure ClonePaths where
  targetDir : String
  fossilFileName : String
  checkoutDir : String
  repoBaseName : String
deriving DecidableEq

/-- The URL cleaning of the clone workflow (main.go line 232): strip one
trailing "/home" segment. -/
def cloneCleanURL (fossilURL : String) : String :=
  trimSuffix fossilURL "/home"

/-- The path computations of the clone workflow for a parsed URL
(main.go lines 250-274).  The authenticated URL handed to the clone
invocation embeds the local username and is not needed by any path
claim, so it is not part of this record. -/
def clonePathsOfURL (homeDir : String) (parsedURL : GoURL) : ClonePaths :=
  let hostname := parsedURL.host
  let urlPath := trimLeadSlash parsedURL.path
  let targetDir := joinPaths [homeDir, "fossils", hostname, dirPath urlPath]
  let repoBaseName := trimSuffix (basePath urlPath) ".fossil"
  let fossilFileName := repoBaseName ++ ".fossil"
  let checkoutDir := joinPaths [targetDir, repoBaseName]
  { targetDir := targetDir, fossilFileName := fossilFileName,
    checkoutDir := checkoutDir, repoBaseName := repoBaseName }

/-- The clone workflow path computation from the raw URL argument
(main.go lines 227-274): none when URL parsing fails. -/
def clonePaths (homeDir fossilURL : String) : Option ClonePaths :=
  match parseURL (cloneCleanURL fossilURL) with
  | none => none
  | some u => some (clonePathsOfURL homeDir u)

/-- The ".." path component. -/
def dd : List Char := ['.', '.']

/-- A path component in cleaned normal form: non-empty, not "." or "..",
and containing no separator. -/
def normalComp (c : List Char) : Prop :=
  c ≠ [] ∧ c ≠ ['.'] ∧ c ≠ dd ∧ '/' ∉ c

/-- Every component of the list is "..". -/
def allDD (l : List (List Char)) : Prop :=
  ∀ c ∈ l, c = dd

/-- Every component of the list is in cleaned normal form. -/
def allNormal (l : List (List Char)) : Prop :=
  ∀ c ∈ l, normalComp c

/-! ### Basic string facts -/

theorem data_append (s t : String) : (s ++ t).data = s.data ++ t.data := by
  cases s; cases t; rfl

theorem data_ne_nil_of_ne_empty {s : String} (h : s ≠ "") : s.data ≠ [] := by
  intro hd
  apply h
  cases s with
  | mk l => cases hd; rfl

theorem hasSuffix_append (s suf : String) : hasSuffix (s ++ suf) suf = true := by
  unfold hasSuffix
  rw [data_append]
  exact List.isSuffixOf_iff_suffix.mpr (List.suffix_append _ _)

theorem trimSuffix_append (s suf : String) : trimSuffix (s ++ suf) suf = s := by
  unfold trimSuffix
  rw [if_pos (hasSuffix_append s suf), data_append]
  have h1 : (s.data ++ suf.data).length - suf.data.length = s.data.length := by
    simp [List.length_append]
  rw [h1, List.take_left]

theorem trimSuffix_of_not_hasSuffix {s suf : String} (h : hasSuffix s suf = false) :
    trimSuffix s suf = s := by
  unfold trimSuffix
  rw [if_neg (by simp [h])]

/-! ### Splitting at the first occurrence of a character -/

theorem breakAtFirst_eq_none {sep : Char} :
    ∀ {l : List Char}, sep ∉ l → breakAtFirst sep l = none := by
  intro l
  induction l with
  | nil => intro _; rfl
  | cons c cs ih =>
    intro h
    rw [List.mem_cons, not_or] at h
    obtain ⟨h1, h2⟩ := h
    simp only [breakAtFirst]
    rw [if_neg (fun hh : c = sep => h1 hh.symm), ih h2]

theorem breakAtFirst_eq_some {sep : Char} :
    ∀ {l : List Char}, sep ∈ l → ∃ p q, breakAtFirst sep l = some (p, q) := by
  intro l
  induction l with
  | nil => intro h; exact absurd h (List.not_mem_nil sep)
  | cons c cs ih =>
    intro h
    by_cases hc : c = sep
    · exact ⟨[], cs, by simp [breakAtFirst, hc]⟩
    · have hmem : sep ∈ cs := by
        rcases List.mem_cons.mp h with h1 | h1
        · exact absurd h1.symm hc
        · exact h1
      obtain ⟨p, q, hpq⟩ := ih hmem
      exact ⟨c :: p, q, by simp [breakAtFirst, hc, hpq]⟩

theorem splitN2Colon_no_colon {s : String} (h : ':' ∉ s.data) :
    splitN2Colon s = [s] := by
  unfold splitN2Colon
  rw [breakAtFirst_eq_none h]

theorem splitN2Colon_colon {s : String} (h : ':' ∈ s.data) :
    ∃ a b : String, splitN2Colon s = [a, b] := by
  obtain ⟨p, q, hpq⟩ := breakAtFirst_eq_some h
  exact ⟨⟨p⟩, ⟨q⟩, by simp [splitN2Colon, hpq]⟩

/-! ### Splitting and joining on the path separator -/

theorem consHeadC_append (c : Char) (xs ys : List (List Char)) (h : xs ≠ []) :
    consHeadC c (xs ++ ys) = consHeadC c xs ++ ys := by
  cases xs with
  | nil => exact absurd rfl h
  | cons p ps => rfl

theorem splitOnC_ne_nil (sep : Char) : ∀ l : List Char, splitOnC sep l ≠ [] := by
  intro l
  induction l with
  | nil => simp [splitOnC]
  | cons c cs ih =>
    simp only [splitOnC]
    by_cases hc : c = sep
    · simp [hc]
    · rw [if_neg hc]
      cases hsp : splitOnC sep cs with
      | nil => simp [consHeadC]
      | cons p ps => simp [consHeadC]

theorem splitOnC_single {sep : Char} :
    ∀ {x : List Char}, sep ∉ x → splitOnC sep x = [x] := by
  intro x
  induction x with
  | nil => intro _; rfl
  | cons c cs ih =>
    intro h
    rw [List.mem_cons, not_or] at h
    obtain ⟨h1, h2⟩ := h
    simp only [splitOnC]
    rw [if_neg (fun hh : c = sep => h1 hh.symm), ih h2]
    rfl

theorem splitOnC_append_sep (sep : Char) :
    ∀ (p q : List Char), splitOnC sep (p ++ sep :: q) = splitOnC sep p ++ splitOnC sep q := by
  intro p q
  induction p with
  | nil => simp [splitOnC]
  | cons c cs ih =>
    rw [List.cons_append]
    simp only [splitOnC]
    by_cases hc : c = sep
    · rw [if_pos hc, if_pos hc, ih]
      rfl
    · rw [if_neg hc, if_neg hc, ih]
      exact consHeadC_append c (splitOnC sep cs) (splitOnC sep q) (splitOnC_ne_nil sep cs)

theorem not_mem_of_mem_splitOnC (sep : Char) :
    ∀ (l : List Char), ∀ c ∈ splitOnC sep l, sep ∉ c := by
  intro l
  induction l with
  | nil =>
    intro c hc
    simp [splitOnC] at hc
    subst hc
    simp
  | cons a as ih =>
    intro c hc
    simp only [splitOnC] at hc
    by_cases ha : a = sep
    · rw [if_pos ha] at hc
      rcases List.mem_cons.mp hc with h | h
      · subst h; simp
      · exact ih c h
    · rw [if_neg ha] at hc
      cases hsp : splitOnC sep as with
      | nil => exact absurd hsp (splitOnC_ne_nil sep as)
      | cons p ps =>
        rw [hsp] at hc
        simp only [consHeadC] at hc
        rcases List.mem_cons.mp hc with h | h
        · subst h
          intro hmem
          rcases List.mem_cons.mp hmem with h1 | h1
          · exact ha h1.symm
          · exact ih p (by rw [hsp]; exact List.mem_cons_self p ps) h1
        · exact ih c (by rw [hsp]; exact List.mem_cons.mpr (Or.inr h))

theorem intercalateC_append_single (sep : Char) (y : List Char) :
    ∀ (ys : List (List Char)), ys ≠ [] →
    intercalateC sep (ys ++ [y]) = intercalateC sep ys ++ sep :: y := by
  intro ys
  induction ys with
  | nil => intro h; exact absurd rfl h
  | cons x t ih =>
    intro _
    cases t with
    | nil => rfl
    | cons z zs =>
      show x ++ sep :: intercalateC sep ((z :: zs) ++ [y])
          = (x ++ sep :: intercalateC sep (z :: zs)) ++ sep :: y
      rw [ih (by simp)]
      simp

theorem head?_intercalateC (sep : Char) (c0 : List Char) (h : c0 ≠ []) :
    ∀ t, (intercalateC sep (c0 :: t)).head? = c0.head? := by
  intro t
  cases t with
  | nil => rfl
  | cons z zs =>
    simp only [intercalateC]
    cases c0 with
    | nil => exact absurd rfl h
    | cons a as => rfl

theorem intercalateC_ne_nil (sep : Char) (c0 : List Char) (h : c0 ≠ []) (t : List (List Char)) :
    intercalateC sep (c0 :: t) ≠ [] := by
  intro hc
  have hh := head?_intercalateC sep c0 h t
  rw [hc] at hh
  cases c0 with
  | nil => exact h rfl
  | cons a as => simp at hh

theorem splitOnC_intercalateC (sep : Char) :
    ∀ (xs : List (List Char)), xs ≠ [] → (∀ x ∈ xs, sep ∉ x) →
    splitOnC sep (intercalateC sep xs) = xs := by
  intro xs
  induction xs with
  | nil => intro h _; exact absurd rfl h
  | cons x t ih =>
    intro _ hmem
    cases t with
    | nil => exact splitOnC_single (hmem x (by simp))
    | cons z zs =>
      show splitOnC sep (x ++ sep :: intercalateC sep (z :: zs)) = x :: z :: zs
      rw [splitOnC_append_sep sep x (intercalateC sep (z :: zs))]
      rw [splitOnC_single (hmem x (by simp)),
        ih (by simp) (fun c hc => hmem c (by simp [hc]))]
      rfl

/-! ### Cleaning steps -/

theorem cleanStep_empty_comp (rooted : Bool) (acc : List (List Char)) :
    cleanStep rooted acc [] = acc := rfl

theorem cleanStep_dot (rooted : Bool) (acc : List (List Char)) :
    cleanStep rooted acc ['.'] = acc := rfl

theorem cleanStep_dd_nil_false : cleanStep false [] dd = [dd] := rfl

theorem cleanStep_dd_nil_true : cleanStep true [] dd = [] := rfl

theorem cleanStep_dd_cons_dd (rooted : Bool) (a : List Char) (rest : List (List Char))
    (ha : a = dd) : cleanStep rooted (a :: rest) dd = dd :: a :: rest := by
  subst ha
  rfl

theorem cleanStep_dd_cons_ne (rooted : Bool) (a : List Char) (rest : List (List Char))
    (ha : a ≠ dd) : cleanStep rooted (a :: rest) dd = rest := by
  unfold cleanStep
  rw [if_neg (by simp [dd]), if_neg (by simp [dd]),
    if_pos (show dd = ['.', '.'] from rfl)]
  show (if a = ['.', '.'] then ['.', '.'] :: a :: rest else rest) = rest
  exact if_neg ha

theorem cleanStep_normal (rooted : Bool) (acc : List (List Char)) (c : List Char)
    (h : normalComp c) : cleanStep rooted acc c = c :: acc := by
  obtain ⟨h1, h2, h3, _⟩ := h
  unfold cleanStep
  rw [if_neg h1, if_neg h2, if_neg (show c ≠ ['.', '.'] from h3)]

theorem cleanStack_append_dot (rooted : Bool) (acc cs : List (List Char)) :
    cleanStack rooted acc (cs ++ [['.']]) = cleanStack rooted acc cs := by
  simp [cleanStack, List.foldl_append, cleanStep_dot]

theorem foldl_cleanStep_normal (rooted : Bool) :
    ∀ (gs : List (List Char)), allNormal gs →
    ∀ acc, gs.foldl (cleanStep rooted) acc = gs.reverse ++ acc := by
  intro gs
  induction gs with
  | nil => intro _ acc; simp
  | cons c t ih =>
    intro h acc
    have hstep := cleanStep_normal rooted acc c (h c (by simp))
    simp only [List.foldl_cons, hstep]
    rw [ih (fun x hx => h x (by simp [hx])) (c :: acc)]
    simp

theorem foldl_cleanStep_dotdots :
    ∀ (ds : List (List Char)), allDD ds →
    ∀ acc, allDD acc → ds.foldl (cleanStep false) acc = ds.reverse ++ acc := by
  intro ds
  induction ds with
  | nil => intro _ acc _; simp
  | cons c t ih =>
    intro h acc hacc
    have hc : c = dd := h c (by simp)
    subst hc
    have hstep : cleanStep false acc dd = dd :: acc := by
      cases acc with
      | nil => exact cleanStep_dd_nil_false
      | cons a rest => exact cleanStep_dd_cons_dd false a rest (hacc a (by simp))
    have hacc2 : allDD (dd :: acc) := by
      intro x hx
      rcases List.mem_cons.mp hx with h1 | h1
      · exact h1
      · exact hacc x h1
    simp only [List.foldl_cons, hstep]
    rw [ih (fun x hx => h x (by simp [hx])) (dd :: acc) hacc2]
    simp

theorem foldl_cleanStep_rooted :
    ∀ (cs : List (List Char)), (∀ c ∈ cs, '/' ∉ c) →
    ∀ acc, allNormal acc → allNormal (cs.foldl (cleanStep true) acc) := by
  intro cs
  induction cs with
  | nil => intro _ acc h; simpa using h
  | cons c t ih =>
    intro hcs acc hacc
    have hslash : '/' ∉ c := hcs c (by simp)
    have hcs2 : ∀ x ∈ t, '/' ∉ x := fun x hx => hcs x (by simp [hx])
    simp only [List.foldl_cons]
    by_cases h1 : c = []
    · rw [h1, cleanStep_empty_comp]
      exact ih hcs2 acc hacc
    by_cases h2 : c = ['.']
    · rw [h2, cleanStep_dot]
      exact ih hcs2 acc hacc
    by_cases h3 : c = dd
    · subst h3
      cases acc with
      | nil =>
        rw [cleanStep_dd_nil_true]
        exact ih hcs2 [] (by intro x hx; simp at hx)
      | cons a rest =>
        have hane : a ≠ dd := (hacc a (by simp)).2.2.1
        rw [cleanStep_dd_cons_ne true a rest hane]
        exact ih hcs2 rest (fun x hx => hacc x (by simp [hx]))
    · rw [cleanStep_normal true acc c ⟨h1, h2, h3, hslash⟩]
      refine ih hcs2 (c :: acc) ?_
      intro x hx
      rcases List.mem_cons.mp hx with h | h
      · subst h; exact ⟨h1, h2, h3, hslash⟩
      · exact hacc x h

theorem foldl_cleanStep_unrooted :
    ∀ (cs : List (List Char)), (∀ c ∈ cs, '/' ∉ c) →
    ∀ (g d : List (List Char)), allNormal g → allDD d →
    ∃ g2 d2, cs.foldl (cleanStep false) (g ++ d) = g2 ++ d2 ∧ allNormal g2 ∧ allDD d2 := by
  intro cs
  induction cs with
  | nil => intro _ g d hg hd; exact ⟨g, d, rfl, hg, hd⟩
  | cons c t ih =>
    intro hcs g d hg hd
    have hslash : '/' ∉ c := hcs c (by simp)
    have hcs2 : ∀ x ∈ t, '/' ∉ x := fun x hx => hcs x (by simp [hx])
    simp only [List.foldl_cons]
    by_cases h1 : c = []
    · rw [h1, cleanStep_empty_comp]
      exact ih hcs2 g d hg hd
    by_cases h2 : c = ['.']
    · rw [h2, cleanStep_dot]
      exact ih hcs2 g d hg hd
    by_cases h3 : c = dd
    · subst h3
      cases g with
      | nil =>
        cases d with
        | nil =>
          simp only [List.nil_append, cleanStep_dd_nil_false]
          have hallDD : allDD [dd] := by
            intro x hx
            simpa using hx
          simpa using ih hcs2 [] [dd] (by intro x hx; simp at hx) hallDD
        | cons b d2 =>
          have hb : b = dd := hd b (by simp)
          simp only [List.nil_append]
          rw [cleanStep_dd_cons_dd false b d2 hb]
          have hallDD : allDD (dd :: b :: d2) := by
            intro x hx
            rcases List.mem_cons.mp hx with h | h
            · exact h
            · exact hd x h
          simpa using ih hcs2 [] (dd :: b :: d2) (by intro x hx; simp at hx) hallDD
      | cons a g2 =>
        have hane : a ≠ dd := (hg a (by simp)).2.2.1
        simp only [List.cons_append]
        rw [cleanStep_dd_cons_ne false a (g2 ++ d) hane]
        exact ih hcs2 g2 d (fun x hx => hg x (by simp [hx])) hd
    · have hnc : normalComp c := ⟨h1, h2, h3, hslash⟩
      rw [cleanStep_normal false (g ++ d) c hnc]
      have hg2 : allNormal (c :: g) := by
        intro x hx
        rcases List.mem_cons.mp hx with h | h
        · subst h; exact hnc
        · exact hg x h
      simpa using ih hcs2 (c :: g) d hg2 hd

theorem cleanStack_shape_rooted (cs : List (List Char)) (hcs : ∀ c ∈ cs, '/' ∉ c) :
    allNormal (cleanStack true [] cs) := by
  intro x hx
  unfold cleanStack at hx
  rw [List.mem_reverse] at hx
  exact foldl_cleanStep_rooted cs hcs [] (by intro y hy; simp at hy) x hx

theorem cleanStack_shape_unrooted (cs : List (List Char)) (hcs : ∀ c ∈ cs, '/' ∉ c) :
    ∃ d2 g2, cleanStack false [] cs = d2 ++ g2 ∧ allDD d2 ∧ allNormal g2 := by
  obtain ⟨g2, d2, heq, hg, hd⟩ :=
    foldl_cleanStep_unrooted cs hcs [] [] (by intro x hx; simp at hx) (by intro x hx; simp at hx)
  rw [List.nil_append] at heq
  refine ⟨d2.reverse, g2.reverse, ?_, ?_, ?_⟩
  · unfold cleanStack
    rw [heq, List.reverse_append]
  · intro x hx
    exact hd x (List.mem_reverse.mp hx)
  · intro x hx
    exact hg x (List.mem_reverse.mp hx)

theorem cleanStack_id_normal (rooted : Bool) (g : List (List Char)) (hg : allNormal g) :
    cleanStack rooted [] g = g := by
  unfold cleanStack
  rw [foldl_cleanStep_normal rooted g hg []]
  simp

theorem cleanStack_id_unrooted (d g : List (List Char)) (hd : allDD d) (hg : allNormal g) :
    cleanStack false [] (d ++ g) = d ++ g := by
  unfold cleanStack
  rw [List.foldl_append]
  rw [show List.foldl (cleanStep false) [] d = d.reverse by
    simpa using foldl_cleanStep_dotdots d hd [] (by intro x hx; simp at hx)]
  rw [foldl_cleanStep_normal false g hg d.reverse]
  simp

theorem cleanStack_cons_empty (rooted : Bool) (acc cs : List (List Char)) :
    cleanStack rooted acc ([] :: cs) = cleanStack rooted acc cs := by
  simp [cleanStack, cleanStep_empty_comp]

theorem splitOnC_cons_sep (sep : Char) (l : List Char) :
    splitOnC sep (sep :: l) = [] :: splitOnC sep l := by
  simp [splitOnC]

/-! ### Cleaning a path is idempotent -/

theorem cleanAssemble_ne_nil (rooted : Bool) (comps : List (List Char)) :
    cleanAssemble rooted comps ≠ [] := by
  by_cases hb : intercalateC '/' comps = []
  · cases rooted <;> simp [cleanAssemble, hb]
  · cases rooted <;> simp [cleanAssemble, hb]

theorem cleanC_ne_nil (p : List Char) : cleanC p ≠ [] := by
  unfold cleanC
  by_cases hp : p = []
  · simp [hp]
  · rw [if_neg hp]
    exact cleanAssemble_ne_nil _ _

theorem cleanC_append_slashdot (z : List Char) (hz : z ≠ []) :
    cleanC (z ++ ['/', '.']) = cleanC z := by
  unfold cleanC
  rw [if_neg (by simp [hz]), if_neg hz]
  have hr : isRooted (z ++ ['/', '.']) = isRooted z := by
    cases z with
    | nil => exact absurd rfl hz
    | cons a t => rfl
  have hsp : splitOnC '/' (z ++ ['/', '.']) = splitOnC '/' z ++ [['.']] := by
    rw [show z ++ ['/', '.'] = z ++ '/' :: ['.'] from rfl, splitOnC_append_sep]
    rfl
  rw [hr, hsp, cleanStack_append_dot]

theorem exists_cons_intercalateC (sep x : Char) (xs : List Char) (t : List (List Char)) :
    ∃ t2, intercalateC sep ((x :: xs) :: t) = x :: t2 := by
  cases t with
  | nil => exact ⟨xs, rfl⟩
  | cons z zs => exact ⟨xs ++ sep :: intercalateC sep (z :: zs), rfl⟩

theorem cleanC_idem (p : List Char) : cleanC (cleanC p) = cleanC p := by
  by_cases hp : p = []
  · subst hp
    decide
  · have hcp : cleanC p = cleanAssemble (isRooted p) (cleanStack (isRooted p) [] (splitOnC '/' p)) := by
      unfold cleanC
      rw [if_neg hp]
    have hns : ∀ c ∈ splitOnC '/' p, '/' ∉ c := not_mem_of_mem_splitOnC '/' p
    cases hroot : isRooted p with
    | true =>
      rw [hroot] at hcp
      set out := cleanStack true [] (splitOnC '/' p) with hdef
      have hout : allNormal out := cleanStack_shape_rooted _ hns
      by_cases hb : intercalateC '/' out = []
      · have h1 : cleanC p = ['/'] := by
          rw [hcp]
          simp [cleanAssemble, hb]
        rw [h1]
        decide
      · have hone : out ≠ [] := by
          intro h0
          rw [h0] at hb
          exact hb rfl
        have h1 : cleanC p = '/' :: intercalateC '/' out := by
          rw [hcp]
          simp [cleanAssemble, hb]
        rw [h1]
        unfold cleanC
        rw [if_neg (by simp)]
        rw [show isRooted ('/' :: intercalateC '/' out) = true by simp [isRooted]]
        rw [splitOnC_cons_sep,
          splitOnC_intercalateC '/' out hone (fun x hx => (hout x hx).2.2.2)]
        rw [cleanStack_cons_empty, cleanStack_id_normal true out hout]
        simp [cleanAssemble, hb]
    | false =>
      rw [hroot] at hcp
      obtain ⟨d2, g2, hshape, hd2, hg2⟩ := cleanStack_shape_unrooted (splitOnC '/' p) hns
      rw [hshape] at hcp
      by_cases hb : intercalateC '/' (d2 ++ g2) = []
      · have h1 : cleanC p = ['.'] := by
          rw [hcp]
          simp [cleanAssemble, hb]
        rw [h1]
        decide
      · have hone : d2 ++ g2 ≠ [] := by
          intro h0
          rw [h0] at hb
          exact hb rfl
        have h1 : cleanC p = intercalateC '/' (d2 ++ g2) := by
          rw [hcp]
          simp [cleanAssemble, hb]
        obtain ⟨c0, rest, hcr⟩ : ∃ c0 rest, d2 ++ g2 = c0 :: rest := by
          cases hx : d2 ++ g2 with
          | nil => exact absurd hx hone
          | cons a b => exact ⟨a, b, rfl⟩
        have hc0mem : c0 ∈ d2 ++ g2 := by
          rw [hcr]
          simp
        have hc0ne : c0 ≠ [] := by
          rcases List.mem_append.mp hc0mem with h | h
          · rw [hd2 c0 h]
            simp [dd]
          · exact (hg2 c0 h).1
        have hc0slash : '/' ∉ c0 := by
          rcases List.mem_append.mp hc0mem with h | h
          · rw [hd2 c0 h]
            simp [dd]
          · exact (hg2 c0 h).2.2.2
        have hnos : ∀ x ∈ d2 ++ g2, '/' ∉ x := by
          intro x hx
          rcases List.mem_append.mp hx with h | h
          · rw [hd2 x h]
            simp [dd]
          · exact (hg2 x h).2.2.2
        rw [h1]
        unfold cleanC
        rw [if_neg hb]
        obtain ⟨x0, xs0, hx0⟩ : ∃ x0 xs0, c0 = x0 :: xs0 := by
          cases hc : c0 with
          | nil => exact absurd hc hc0ne
          | cons a b => exact ⟨a, b, rfl⟩
        have hr2 : isRooted (intercalateC '/' (d2 ++ g2)) = false := by
          rw [hcr, hx0]
          obtain ⟨t2, ht2⟩ := exists_cons_intercalateC '/' x0 xs0 rest
          rw [ht2]
          have hx0ne : x0 ≠ '/' := by
            intro hcon
            exact hc0slash (by rw [hx0, hcon]; simp)
          simp [isRooted, hx0ne]
        rw [hr2]
        rw [splitOnC_intercalateC '/' (d2 ++ g2) hone hnos]
        rw [cleanStack_id_unrooted d2 g2 hd2 hg2]
        simp [cleanAssemble, hb]

/-! ### Joining paths -/

theorem joinPaths_cons_ne (e : String) (rest : List String) (he : e ≠ "") :
    joinPaths (e :: rest) = ⟨cleanC (intercalateC '/' ((e :: rest).map String.data))⟩ := by
  unfold joinPaths
  rw [if_neg he]

theorem joinPaths_cons_empty (rest : List String) :
    joinPaths ("" :: rest) = joinPaths rest := rfl

theorem joinPaths_eq_clean :
    ∀ (xs : List String), (∃ x ∈ xs, x ≠ "") → ∃ y, joinPaths xs = ⟨cleanC y⟩ := by
  intro xs
  induction xs with
  | nil =>
    intro h
    obtain ⟨x, hx, _⟩ := h
    simp at hx
  | cons e rest ih =>
    intro hex
    by_cases he : e = ""
    · subst he
      rw [joinPaths_cons_empty]
      apply ih
      obtain ⟨x, hx, hxn⟩ := hex
      rcases List.mem_cons.mp hx with h | h
      · exact absurd h hxn
      · exact ⟨x, h, hxn⟩
    · exact ⟨_, joinPaths_cons_ne e rest he⟩

theorem joinPaths_ne_empty (xs : List String) (h : ∃ x ∈ xs, x ≠ "") :
    joinPaths xs ≠ "" := by
  obtain ⟨y, hy⟩ := joinPaths_eq_clean xs h
  rw [hy]
  intro hcon
  exact cleanC_ne_nil y (congrArg String.data hcon)

theorem joinPaths_append_dot :
    ∀ (xs : List String), (∃ x ∈ xs, x ≠ "") →
    joinPaths (xs ++ ["."]) = joinPaths xs := by
  intro xs
  induction xs with
  | nil =>
    intro h
    obtain ⟨x, hx, _⟩ := h
    simp at hx
  | cons e rest ih =>
    intro hex
    by_cases he : e = ""
    · subst he
      rw [List.cons_append, joinPaths_cons_empty, joinPaths_cons_empty]
      apply ih
      obtain ⟨x, hx, hxn⟩ := hex
      rcases List.mem_cons.mp hx with h | h
      · exact absurd h hxn
      · exact ⟨x, h, hxn⟩
    · rw [List.cons_append, joinPaths_cons_ne e (rest ++ ["."]) he,
        joinPaths_cons_ne e rest he]
      have hmap : (e :: (rest ++ ["."])).map String.data
          = (e :: rest).map String.data ++ [['.']] := by
        simp
      rw [hmap]
      rw [intercalateC_append_single '/' ['.'] ((e :: rest).map String.data) (by simp)]
      have hz : intercalateC '/' ((e :: rest).map String.data) ≠ [] := by
        have he2 : e.data ≠ [] := data_ne_nil_of_ne_empty he
        exact intercalateC_ne_nil '/' e.data he2 (rest.map String.data)
      have happ : intercalateC '/' ((e :: rest).map String.data) ++ '/' :: ['.']
          = intercalateC '/' ((e :: rest).map String.data) ++ ['/', '.'] := rfl
      rw [happ, cleanC_append_slashdot _ hz]

theorem joinPaths_join_single (xs : List String) (h : ∃ x ∈ xs, x ≠ "") :
    joinPaths [joinPaths xs] = joinPaths xs := by
  obtain ⟨y, hy⟩ := joinPaths_eq_clean xs h
  have hne := joinPaths_ne_empty xs h
  rw [hy] at hne ⊢
  rw [joinPaths_cons_ne _ [] hne]
  show (⟨cleanC (cleanC y)⟩ : String) = ⟨cleanC y⟩
  rw [cleanC_idem]

/-! ### Transfer workflow case equations -/

theorem isRunScp_runScp (a b : String) : isRunScp (.runScp a b) = true := rfl

theorem isRunScp_runSftp (a b : String) : isRunScp (.runSftp a b) = false := rfl

theorem isRunScp_print (a : String) : isRunScp (.printRemediation a) = false := rfl

theorem isRunSftp_runScp (a b : String) : isRunSftp (.runScp a b) = false := rfl

theorem isRunSftp_runSftp (a b : String) : isRunSftp (.runSftp a b) = true := rfl

theorem isRunSftp_print (a : String) : isRunSftp (.printRemediation a) = false := rfl

theorem transferCmdRun_empty (repoName remoteUser : String) (scpOk sftpOk : Bool) :
    transferCmdRun repoName "" remoteUser scpOk sftpOk
      = ([], .fatal "--destination flag is required.") := rfl

theorem successReport_noColon (repoName destination remoteUser : String)
    (evs : List TransferEvent) (hnc : ':' ∉ destination.data) :
    successReport repoName destination remoteUser evs = (evs, .panicIndexOutOfRange) := by
  unfold successReport
  rw [splitN2Colon_no_colon hnc]
  rfl

theorem successReport_colon (repoName destination remoteUser : String)
    (evs : List TransferEvent) (hc : ':' ∈ destination.data) :
    ∃ line, successReport repoName destination remoteUser evs
      = (evs ++ [.printRemediation line], .success) := by
  obtain ⟨a, b, hs⟩ := splitN2Colon_colon hc
  refine ⟨sshRemediation a remoteUser (joinPaths [b, repoName]), ?_⟩
  unfold successReport
  rw [hs]
  rfl

theorem transferCmdRun_scpOk (repoName destination remoteUser : String) (sftpOk : Bool)
    (hne : destination ≠ "") :
    transferCmdRun repoName destination remoteUser true sftpOk
      = successReport repoName destination remoteUser [.runScp repoName destination] := by
  unfold transferCmdRun
  rw [if_neg hne]
  rfl

theorem transferCmdRun_scpFail_noColon (repoName destination remoteUser : String)
    (sftpOk : Bool) (hne : destination ≠ "") (hnc : ':' ∉ destination.data) :
    transferCmdRun repoName destination remoteUser false sftpOk
      = ([.runScp repoName destination],
         .fatal "Invalid destination format. Expected user@host:path") := by
  unfold transferCmdRun
  rw [if_neg hne]
  simp [splitN2Colon_no_colon hnc]

theorem transferCmdRun_scpFail_colon_sftpOk (repoName destination remoteUser : String)
    (hne : destination ≠ "") (hc : ':' ∈ destination.data) :
    ∃ userHost stdinLine line,
      transferCmdRun repoName destination remoteUser false true
        = ([.runScp repoName destination, .runSftp userHost stdinLine,
            .printRemediation line], .success) := by
  obtain ⟨a, b, hs⟩ := splitN2Colon_colon hc
  refine ⟨a, "put " ++ repoName ++ " " ++ b,
    sshRemediation a remoteUser (joinPaths [b, repoName]), ?_⟩
  unfold transferCmdRun
  rw [if_neg hne]
  simp [hs, successReport]

theorem transferCmdRun_scpFail_colon_sftpFail (repoName destination remoteUser : String)
    (hne : destination ≠ "") (hc : ':' ∈ destination.data) :
    ∃ userHost stdinLine,
      transferCmdRun repoName destination remoteUser false false
        = ([.runScp repoName destination, .runSftp userHost stdinLine],
           .fatal "sftp fallback also failed") := by
  obtain ⟨a, b, hs⟩ := splitN2Colon_colon hc
  refine ⟨a, "put " ++ repoName ++ " " ++ b, ?_⟩
  unfold transferCmdRun
  rw [if_neg hne]
  simp [hs]

/-! ### Claims -/

/-- Claim C1: if the primary scp delivery succeeds for a destination that
contains no colon, the success path of the transfer workflow panics with
an index out of range while building the remediation command, because it
re-splits the destination on the colon and reads the second part without
checking the number of parts; with at least one colon in the destination
the success path completes normally, so it is total exactly under that
precondition. -/
theorem c1_success_path_panics_without_colon
    (repoName destination remoteUser : String) (sftpOk : Bool)
    (hne : destination ≠ "") :
    (':' ∉ destination.data →
      transferCmdRun repoName destination remoteUser true sftpOk
        = ([.runScp repoName destination], .panicIndexOutOfRange))
    ∧ (':' ∈ destination.data →
      (transferCmdRun repoName destination remoteUser true sftpOk).2 = .success) := by
  constructor
  · intro hnc
    rw [transferCmdRun_scpOk repoName destination remoteUser sftpOk hne]
    exact successReport_noColon _ _ _ _ hnc
  · intro hc
    rw [transferCmdRun_scpOk repoName destination remoteUser sftpOk hne]
    obtain ⟨line, hline⟩ := successReport_colon repoName destination remoteUser _ hc
    rw [hline]

/-- Witness for C1 at a concrete colon-free destination. -/
theorem c1_witness :
    "backups" ≠ "" ∧ ':' ∉ "backups".data
    ∧ transferCmdRun "repo.fossil" "backups" "www-data" true true
        = ([.runScp "repo.fossil" "backups"], .panicIndexOutOfRange) := by
  refine ⟨by decide, by decide, ?_⟩
  exact (c1_success_path_panics_without_colon "repo.fossil" "backups" "www-data" true
    (by decide)).1 (by decide)

/-- Counterexample to claim C2 as stated: for the malformed (non-empty,
colon-free) destination "serverpath", the primary scp delivery is
attempted -- one external call appears in the trace -- before the
malformed-destination error halts the process, so the process does not
halt before any external call. -/
theorem c2_counterexample :
    transferCmdRun "repo.fossil" "serverpath" "www-data" false false
      = ([.runScp "repo.fossil" "serverpath"],
         .fatal "Invalid destination format. Expected user@host:path")
    ∧ scpAttempts (transferCmdRun "repo.fossil" "serverpath" "www-data" false false).1 = 1 :=
  ⟨by decide, by decide⟩

/-- Claim C2 (amended): for a malformed destination, only the empty
(missing) destination halts before any external call, with the
missing-flag error; a non-empty destination without a colon is reported
as a fatal invalid-destination error only after the primary scp delivery
has been attempted and failed. -/
theorem c2_amended_validation_after_primary
    (repoName destination remoteUser : String) (scpOk sftpOk : Bool)
    (hnc : ':' ∉ destination.data) :
    (destination = "" →
      transferCmdRun repoName destination remoteUser scpOk sftpOk
        = ([], .fatal "--destination flag is required."))
    ∧ (destination ≠ "" → scpOk = false →
      transferCmdRun repoName destination remoteUser scpOk sftpOk
        = ([.runScp repoName destination],
           .fatal "Invalid destination format. Expected user@host:path")) := by
  constructor
  · intro he
    subst he
    exact transferCmdRun_empty repoName remoteUser scpOk sftpOk
  · intro hne hscp
    subst hscp
    exact transferCmdRun_scpFail_noColon repoName destination remoteUser sftpOk hne hnc

/-- Witness for the amended C2 at a concrete malformed destination. -/
theorem c2_witness :
    ':' ∉ "serverdir".data ∧ "serverdir" ≠ ""
    ∧ transferCmdRun "repo.fossil" "serverdir" "www-data" false true
        = ([.runScp "repo.fossil" "serverdir"],
           .fatal "Invalid destination format. Expected user@host:path") := by
  refine ⟨by decide, by decide, ?_⟩
  exact (c2_amended_validation_after_primary "repo.fossil" "serverdir" "www-data" false true
    (by decide)).2 (by decide) rfl

/-- Claim C3: for every destination without a colon, when the primary
delivery fails the fallback path halts fatally at the destination-split
validation, and the fallback sftp utility is never invoked. -/
theorem c3_fallback_validation_no_sftp
    (repoName destination remoteUser : String) (sftpOk : Bool)
    (hne : destination ≠ "") (hnc : ':' ∉ destination.data) :
    (transferCmdRun repoName destination remoteUser false sftpOk).2
      = .fatal "Invalid destination format. Expected user@host:path"
    ∧ sftpAttempts (transferCmdRun repoName destination remoteUser false sftpOk).1 = 0 := by
  rw [transferCmdRun_scpFail_noColon repoName destination remoteUser sftpOk hne hnc]
  refine ⟨rfl, ?_⟩
  simp [sftpAttempts, List.countP_cons, isRunSftp_runScp]

/-- Witness for C3 at a concrete colon-free destination. -/
theorem c3_witness :
    "plainhost" ≠ "" ∧ ':' ∉ "plainhost".data
    ∧ (transferCmdRun "repo.fossil" "plainhost" "www-data" false true).2
        = .fatal "Invalid destination format. Expected user@host:path"
    ∧ sftpAttempts (transferCmdRun "repo.fossil" "plainhost" "www-data" false true).1 = 0 := by
  refine ⟨by decide, by decide, ?_, ?_⟩
  · exact (c3_fallback_validation_no_sftp "repo.fossil" "plainhost" "www-data" true
      (by decide) (by decide)).1
  · exact (c3_fallback_validation_no_sftp "repo.fossil" "plainhost" "www-data" true
      (by decide) (by decide)).2

/-- Counterexample to claim C4 as stated: for the destination "hostonly"
(no colon) the primary delivery is attempted and fails, yet zero fallback
attempts are made, contradicting that a failed primary is always followed
by exactly one (never zero) fallback attempt. -/
theorem c4_counterexample :
    scpAttempts (transferCmdRun "db.fossil" "hostonly" "www-data" false true).1 = 1
    ∧ sftpAttempts (transferCmdRun "db.fossil" "hostonly" "www-data" false true).1 = 0 :=
  ⟨by decide, by decide⟩

/-- Claim C4 (amended): each delivery mechanism is attempted at most once
per invocation; if the primary delivery succeeds the fallback is never
attempted; if the primary delivery is attempted and fails, exactly one
fallback attempt is made when the destination contains a colon, and zero
(the destination-split validation is fatal first) when it does not. -/
theorem c4_amended_fallback_at_most_once
    (repoName destination remoteUser : String) (scpOk sftpOk : Bool) :
    scpAttempts (transferCmdRun repoName destination remoteUser scpOk sftpOk).1 ≤ 1
    ∧ sftpAttempts (transferCmdRun repoName destination remoteUser scpOk sftpOk).1 ≤ 1
    ∧ (scpOk = true →
        sftpAttempts (transferCmdRun repoName destination remoteUser scpOk sftpOk).1 = 0)
    ∧ (destination ≠ "" → scpOk = false → ':' ∈ destination.data →
        sftpAttempts (transferCmdRun repoName destination remoteUser scpOk sftpOk).1 = 1)
    ∧ (destination ≠ "" → scpOk = false → ':' ∉ destination.data →
        sftpAttempts (transferCmdRun repoName destination remoteUser scpOk sftpOk).1 = 0) := by
  by_cases hd : destination = ""
  · subst hd
    rw [transferCmdRun_empty repoName remoteUser scpOk sftpOk]
    refine ⟨by simp [scpAttempts], by simp [sftpAttempts], ?_, ?_, ?_⟩
    · intro _
      simp [sftpAttempts]
    · intro hne _ _
      exact absurd rfl hne
    · intro hne _ _
      exact absurd rfl hne
  · cases scpOk with
    | true =>
      by_cases hc : ':' ∈ destination.data
      · obtain ⟨line, hline⟩ :=
          successReport_colon repoName destination remoteUser [.runScp repoName destination] hc
        rw [transferCmdRun_scpOk repoName destination remoteUser sftpOk hd, hline]
        refine ⟨?_, ?_, ?_, ?_, ?_⟩
        · simp [scpAttempts, List.countP_cons, isRunScp_runScp, isRunScp_print]
        · simp [sftpAttempts, List.countP_cons, isRunSftp_runScp, isRunSftp_print]
        · intro _
          simp [sftpAttempts, List.countP_cons, isRunSftp_runScp, isRunSftp_print]
        · intro _ hscp _
          cases hscp
        · intro _ hscp _
          cases hscp
      · rw [transferCmdRun_scpOk repoName destination remoteUser sftpOk hd,
          successReport_noColon repoName destination remoteUser _ hc]
        refine ⟨?_, ?_, ?_, ?_, ?_⟩
        · simp [scpAttempts, List.countP_cons, isRunScp_runScp]
        · simp [sftpAttempts, List.countP_cons, isRunSftp_runScp]
        · intro _
          simp [sftpAttempts, List.countP_cons, isRunSftp_runScp]
        · intro _ hscp _
          cases hscp
        · intro _ hscp _
          cases hscp
    | false =>
      by_cases hc : ':' ∈ destination.data
      · cases sftpOk with
        | true =>
          obtain ⟨uh, line, rline, hrun⟩ :=
            transferCmdRun_scpFail_colon_sftpOk repoName destination remoteUser hd hc
          rw [hrun]
          refine ⟨?_, ?_, ?_, ?_, ?_⟩
          · simp [scpAttempts, List.countP_cons, isRunScp_runScp, isRunScp_runSftp,
              isRunScp_print]
          · simp [sftpAttempts, List.countP_cons, isRunSftp_runScp, isRunSftp_runSftp,
              isRunSftp_print]
          · intro hscp
            cases hscp
          · intro _ _ _
            simp [sftpAttempts, List.countP_cons, isRunSftp_runScp, isRunSftp_runSftp,
              isRunSftp_print]
          · intro _ _ hnc
            exact absurd hc hnc
        | false =>
          obtain ⟨uh, line, hrun⟩ :=
            transferCmdRun_scpFail_colon_sftpFail repoName destination remoteUser hd hc
          rw [hrun]
          refine ⟨?_, ?_, ?_, ?_, ?_⟩
          · simp [scpAttempts, List.countP_cons, isRunScp_runScp, isRunScp_runSftp]
          · simp [sftpAttempts, List.countP_cons, isRunSftp_runScp, isRunSftp_runSftp]
          · intro hscp
            cases hscp
          · intro _ _ _
            simp [sftpAttempts, List.countP_cons, isRunSftp_runScp, isRunSftp_runSftp]
          · intro _ _ hnc
            exact absurd hc hnc
      · rw [transferCmdRun_scpFail_noColon repoName destination remoteUser sftpOk hd hc]
        refine ⟨?_, ?_, ?_, ?_, ?_⟩
        · simp [scpAttempts, List.countP_cons, isRunScp_runScp]
        · simp [sftpAttempts, List.countP_cons, isRunSftp_runScp]
        · intro hscp
          cases hscp
        · intro _ _ hcc
          exact absurd hcc hc
        · intro _ _ _
          simp [sftpAttempts, List.countP_cons, isRunSftp_runScp]

/-- Witness for the amended C4: with a well-formed destination and a
failing primary delivery, exactly one fallback attempt is made. -/
theorem c4_witness :
    "user@host:/p" ≠ "" ∧ ':' ∈ "user@host:/p".data
    ∧ sftpAttempts (transferCmdRun "db.fossil" "user@host:/p" "www-data" false true).1 = 1 := by
  refine ⟨by decide, by decide, ?_⟩
  exact (c4_amended_fallback_at_most_once "db.fossil" "user@host:/p" "www-data" false
    true).2.2.2.1 (by decide) rfl (by decide)

/-- Claim C6: for destination alice@example.com:/srv/fossil and the
transferred file repo.fossil, the remediation command printed on success
is an ssh command targeting user and host alice@example.com with forced
pseudo-terminal allocation (ssh -t), running a remote chown of
/srv/fossil/repo.fossil to the default www-data user and group followed
by chmod 664 of the same path; it appears in the trace only as a printed
line (never as an executed command), and it is the same whichever
delivery mechanism succeeded. -/
theorem c6_remediation_command :
    transferCmdRun "repo.fossil" "alice@example.com:/srv/fossil" "www-data" true true
      = ([.runScp "repo.fossil" "alice@example.com:/srv/fossil",
          .printRemediation "ssh -t alice@example.com \"sudo chown www-data:www-data /srv/fossil/repo.fossil && sudo chmod 664 /srv/fossil/repo.fossil\""],
         .success)
    ∧ transferCmdRun "repo.fossil" "alice@example.com:/srv/fossil" "www-data" true false
      = ([.runScp "repo.fossil" "alice@example.com:/srv/fossil",
          .printRemediation "ssh -t alice@example.com \"sudo chown www-data:www-data /srv/fossil/repo.fossil && sudo chmod 664 /srv/fossil/repo.fossil\""],
         .success)
    ∧ transferCmdRun "repo.fossil" "alice@example.com:/srv/fossil" "www-data" false true
      = ([.runScp "repo.fossil" "alice@example.com:/srv/fossil",
          .runSftp "alice@example.com" "put repo.fossil /srv/fossil",
          .printRemediation "ssh -t alice@example.com \"sudo chown www-data:www-data /srv/fossil/repo.fossil && sudo chmod 664 /srv/fossil/repo.fossil\""],
         .success) :=
  ⟨by decide, by decide, by decide⟩

/-- Counterexample to claim C7 as stated: the name
notes.fossil.fossil already ends with ".fossil", so normalization leaves
it unchanged, and the result ends with two stacked ".fossil" suffixes
rather than exactly one. -/
theorem c7_counterexample :
    normalizeRepoName "notes.fossil.fossil" = "notes.fossil.fossil"
    ∧ hasSuffix (normalizeRepoName "notes.fossil.fossil") ".fossil.fossil" = true :=
  ⟨by decide, by decide⟩

/-- Claim C7 (amended): the init workflow name normalization appends
exactly one ".fossil" to a name lacking the suffix, leaves an already
suffixed name unchanged, is idempotent, and its result always ends with
at least one ".fossil" suffix. -/
theorem c7_amended_normalization (repoArg : String) :
    (hasSuffix repoArg ".fossil" = false →
      normalizeRepoName repoArg = repoArg ++ ".fossil")
    ∧ (hasSuffix repoArg ".fossil" = true → normalizeRepoName repoArg = repoArg)
    ∧ normalizeRepoName (normalizeRepoName repoArg) = normalizeRepoName repoArg
    ∧ hasSuffix (normalizeRepoName repoArg) ".fossil" = true := by
  have h2 : ∀ s : String, hasSuffix s ".fossil" = true → normalizeRepoName s = s := by
    intro s h
    unfold normalizeRepoName
    rw [if_pos h]
  have h1 : ∀ s : String, hasSuffix s ".fossil" = false →
      normalizeRepoName s = s ++ ".fossil" := by
    intro s h
    unfold normalizeRepoName
    rw [if_neg (by simp [h])]
  have h4 : hasSuffix (normalizeRepoName repoArg) ".fossil" = true := by
    by_cases h : hasSuffix repoArg ".fossil" = true
    · rw [h2 repoArg h]
      exact h
    · rw [h1 repoArg (by simpa using h)]
      exact hasSuffix_append repoArg ".fossil"
  exact ⟨h1 repoArg, h2 repoArg, h2 _ h4, h4⟩

/-- Witness for the amended C7 at a concrete unsuffixed name. -/
theorem c7_witness :
    hasSuffix "notes" ".fossil" = false
    ∧ normalizeRepoName "notes" = "notes" ++ ".fossil" := by
  refine ⟨by decide, ?_⟩
  exact (c7_amended_normalization "notes").1 (by decide)

/-- Claim C9: an init workflow invocation whose password flag is empty
(or absent, which the flag layer reports as the empty string) halts
fatally with an empty trace: no process-runner invocation is made, not
even the capture-mode whoami lookup. -/
theorem c9_missing_password_halts_before_calls
    (repoArg userFlag : String) (o : InitOracle) :
    initCmdRun repoArg "" userFlag o = ([], .fatal "--password flag is required.") := rfl

/-- Claim C8: the clone workflow URL cleaning strips exactly one trailing
"/home" suffix before parsing -- a URL of the form p ++ "/home" becomes
exactly p, even when p itself ends in "/home" -- and a URL not ending in
"/home" is passed on unmodified. -/
theorem c8_clean_url_strips_home_once (fossilURL : String) :
    (∀ p : String, fossilURL = p ++ "/home" → cloneCleanURL fossilURL = p)
    ∧ (hasSuffix fossilURL "/home" = false → cloneCleanURL fossilURL = fossilURL) := by
  constructor
  · intro p hp
    subst hp
    exact trimSuffix_append p "/home"
  · intro h
    exact trimSuffix_of_not_hasSuffix h

/-- Witness for C8 at a concrete URL with and without the suffix. -/
theorem c8_witness :
    "http://example.com/proj/home" = "http://example.com/proj" ++ "/home"
    ∧ cloneCleanURL "http://example.com/proj/home" = "http://example.com/proj"
    ∧ hasSuffix "http://example.com/proj" "/home" = false
    ∧ cloneCleanURL "http://example.com/proj" = "http://example.com/proj" := by
  refine ⟨by decide, ?_, by decide, ?_⟩
  · exact (c8_clean_url_strips_home_once "http://example.com/proj/home").1
      "http://example.com/proj" (by decide)
  · exact (c8_clean_url_strips_home_once "http://example.com/proj").2 (by decide)

/-- Claim C5: for the repository URL http://example.com/proj/home and any
home directory, the clone workflow computes the target directory
Join(home, "fossils", "example.com") -- the parent of proj, since the
directory portion of the path "proj" is "." -- derives the repository
file name proj.fossil, and places the checkout directory at
Join(targetDir, "proj"). -/
theorem c5_clone_example_paths (home : String) :
    clonePaths home "http://example.com/proj/home"
      = some { targetDir := joinPaths [home, "fossils", "example.com"],
               fossilFileName := "proj.fossil",
               checkoutDir := joinPaths [joinPaths [home, "fossils", "example.com"], "proj"],
               repoBaseName := "proj" } := by
  have hparse : parseURL (cloneCleanURL "http://example.com/proj/home")
      = some ⟨"http", "example.com", "/proj"⟩ := by decide
  unfold clonePaths
  rw [hparse]
  show some (clonePathsOfURL home ⟨"http", "example.com", "/proj"⟩) = _
  simp only [clonePathsOfURL]
  rw [show trimLeadSlash (GoURL.mk "http" "example.com" "/proj").path = "proj" from rfl]
  rw [show dirPath "proj" = "." from rfl]
  rw [show trimSuffix (basePath "proj") ".fossil" = "proj" from rfl]
  rw [show ("proj" ++ ".fossil" : String) = "proj.fossil" from rfl]
  rw [show [home, "fossils", "example.com", "."]
      = [home, "fossils", "example.com"] ++ ["."] from rfl]
  rw [joinPaths_append_dot [home, "fossils", "example.com"]
      ⟨"fossils", by simp, by decide⟩]

/-- Claim C10: for every clone URL whose parsed path component is empty
or just "/", the repository base name is "." (the base of the empty
relative path), the repository file name is "..fossil", and the checkout
directory coincides with the target directory Join(home, "fossils",
host) itself rather than a subdirectory of it. -/
theorem c10_empty_path_clone (home url : String) (u : GoURL)
    (hp : parseURL (cloneCleanURL url) = some u)
    (hpath : u.path = "" ∨ u.path = "/") :
    clonePaths home url
      = some { targetDir := joinPaths [home, "fossils", u.host],
               fossilFileName := "..fossil",
               checkoutDir := joinPaths [home, "fossils", u.host],
               repoBaseName := "." } := by
  have hup : trimLeadSlash u.path = "" := by
    rcases hpath with h | h <;> rw [h] <;> rfl
  unfold clonePaths
  rw [hp]
  show some (clonePathsOfURL home u) = _
  simp only [clonePathsOfURL]
  rw [hup]
  rw [show dirPath "" = "." from rfl]
  rw [show trimSuffix (basePath "") ".fossil" = "." from rfl]
  rw [show ("." ++ ".fossil" : String) = "..fossil" from rfl]
  rw [show [home, "fossils", u.host, "."] = [home, "fossils", u.host] ++ ["."] from rfl]
  rw [joinPaths_append_dot [home, "fossils", u.host] ⟨"fossils", by simp, by decide⟩]
  rw [show [joinPaths [home, "fossils", u.host], "."]
      = [joinPaths [home, "fossils", u.host]] ++ ["."] from rfl]
  rw [joinPaths_append_dot [joinPaths [home, "fossils", u.host]]
      ⟨joinPaths [home, "fossils", u.host], by simp,
        joinPaths_ne_empty _ ⟨"fossils", by simp, by decide⟩⟩]
  rw [joinPaths_join_single [home, "fossils", u.host] ⟨"fossils", by simp, by decide⟩]

/-- Witness for C10 at a concrete URL without a path (after the "/home"
strip). -/
theorem c10_witness :
    parseURL (cloneCleanURL "http://example.com/home")
      = some ⟨"http", "example.com", ""⟩
    ∧ clonePaths "/home/alice" "http://example.com/home"
        = some ⟨"/home/alice/fossils/example.com", "..fossil",
                "/home/alice/fossils/example.com", "."⟩ := by
  refine ⟨by decide, ?_⟩
  have h := c10_empty_path_clone "/home/alice" "http://example.com/home"
    ⟨"http", "example.com", ""⟩ (by decide) (Or.inl rfl)
  rw [h]
  decide

end Teryx
